import Mathlib

/-!
# A model of the TSL `CancellationManager`

The repository ships `tensorflow/tsl/framework/cancellation_test.cc`, the
test suite for the hierarchical cancellation primitive described in the
specification.  The implementation itself (`cancellation.h` / `.cc`) is not
part of the sampled sources, so the definitions below are modelled from the
specification (sections 3-5 and the design notes of section 9): a manager
carries a tri-state status, a registry of token-indexed callback entries,
a token counter, an optional terminal status payload and a list of child
managers.  Callbacks are identified by an `Option Nat` (with `none`
standing for a null `std::function`); invoking a callback is recorded by
incrementing the entry's `fireCount`, so "invoked exactly once" is a
statement about that counter.  Per the design note of section 9, each
entry carries a state in {pending, firing, fired, removed}, which is what
lets the blocking/non-blocking deregistration pair and the observable
cancel-in-progress window be expressed.
-/

set_option autoImplicit false

namespace Cancellation

/-- Modelled from the spec (section 3): the tri-state status of a manager,
not-cancelled / cancel-in-progress / cancelled. -/
inductive MStatus : Type where
  | notCancelled
  | inProgress
  | cancelled
deriving DecidableEq, Repr

/-- Modelled from the spec (section 9 design note): the per-entry state of a
registered callback: still pending, currently executing, already fired, or
deregistered. -/
inductive CbState : Type where
  | pending
  | firing
  | fired
  | removed
deriving DecidableEq, Repr

/-- Modelled from the spec (section 3): a registry entry: the token it was
registered under, the callback (`none` models a null callback), its
execution state, and how many times it has been invoked. -/
structure Entry : Type where
  token : Nat
  cb : Option Nat
  state : CbState
  fireCount : Nat
deriving DecidableEq, Repr

/-- Modelled from the spec (sections 2-3): a cancellation manager: status,
callback registry, token counter, optional terminal status payload (first
writer wins), and the registered child managers.  The sharded token
counters of section 4.1 are a contention optimisation the spec explicitly
allows to be collapsed into a single counter as long as uniqueness is
preserved (section 9), which is how `nextToken` models them. -/
inductive Manager : Type where
  | mk (status : MStatus) (entries : List Entry) (nextToken : Nat)
      (payload : Option Nat) (children : List Manager)

namespace Manager

/-- The status component of a manager. -/
def status : Manager → MStatus
  | .mk s _ _ _ _ => s

/-- The callback registry of a manager. -/
def entries : Manager → List Entry
  | .mk _ es _ _ _ => es

/-- The token counter of a manager. -/
def nextToken : Manager → Nat
  | .mk _ _ n _ _ => n

/-- The terminal status payload of a manager, if one was captured. -/
def payload : Manager → Option Nat
  | .mk _ _ _ pl _ => pl

/-- The child managers registered with a manager. -/
def children : Manager → List Manager
  | .mk _ _ _ _ cs => cs

/-- A freshly constructed manager with no parent: uncancelled, empty
registry, counter at zero, no payload, no children. -/
def new : Manager := .mk .notCancelled [] 0 none []

/-- Modelled from the spec (section 4.5): `IsCancelRequested()` is true from
the instant cancellation starts (status has left `notCancelled`). -/
def isCancelRequested (m : Manager) : Bool :=
  match m.status with
  | .notCancelled => false
  | .inProgress => true
  | .cancelled => true

/-- Modelled from the spec (section 4.5): `IsCancelled()` is true only once
the full sweep has completed. -/
def isCancelled (m : Manager) : Bool :=
  match m.status with
  | .cancelled => true
  | _ => false

/-- Modelled from the spec (section 4.1): token issuance returns a fresh
token that never collides with a previously issued one. -/
def getCancellationToken : Manager → Nat × Manager
  | .mk s es n pl cs => (n, .mk s es (n + 1) pl cs)

/-- `true` when the registry holds an entry for `t` (in any state): the
token has been consumed. -/
def hasToken (m : Manager) (t : Nat) : Bool :=
  m.entries.any fun e => decide (e.token = t)

/-- `true` when the registry holds a still-pending entry for `t`. -/
def isPendingToken (m : Manager) (t : Nat) : Bool :=
  m.entries.any fun e => decide (e.token = t ∧ e.state = .pending)

/-- The state of the entry registered under `t`, if any. -/
def entryStateOf (m : Manager) (t : Nat) : Option CbState :=
  (m.entries.find? fun e => decide (e.token = t)).map Entry.state

/-- Total number of callback invocations recorded against token `t`. -/
def fireCountOf (m : Manager) (t : Nat) : Nat :=
  ((m.entries.filter fun e => decide (e.token = t)).map Entry.fireCount).sum

/-- Modelled from the spec (section 4.2): `RegisterCallback` atomically
associates the callback with the token iff the manager has not started
cancelling and the token has not already been consumed.  The
already-cancelled check comes first, so a null callback after cancellation
fails exactly like a non-null one. -/
def registerCallback (m : Manager) (t : Nat) (cb : Option Nat) : Bool × Manager :=
  match m with
  | .mk s es n pl cs =>
    if s = .notCancelled then
      if es.any (fun e => decide (e.token = t)) then (false, .mk s es n pl cs)
      else (true, .mk s (⟨t, cb, .pending, 0⟩ :: es) n pl cs)
    else (false, .mk s es n pl cs)

/-- Mark the pending entry for `t` (if any) as removed. -/
def removeToken (es : List Entry) (t : Nat) : List Entry :=
  es.map fun e =>
    if e.token = t ∧ e.state = .pending then { e with state := .removed } else e

/-- Modelled from the spec (section 4.3): `TryDeregisterCallback` removes the
callback iff it is still pending; it returns `false` immediately (state
untouched) when the token is unknown, already fired, deregistered, or its
callback is currently executing. -/
def tryDeregisterCallback (m : Manager) (t : Nat) : Bool × Manager :=
  match m with
  | .mk s es n pl cs =>
    if es.any (fun e => decide (e.token = t ∧ e.state = .pending)) then
      (true, .mk s (removeToken es t) n pl cs)
    else (false, .mk s es n pl cs)

/-- Modelled from the spec (section 4.3): `DeregisterCallback` has the same
removal semantics as `tryDeregisterCallback`, but when the token's callback
is in flight the caller blocks until it finishes.  Blocking is modelled by
the convention that this function is evaluated on the state observed after
the wait, i.e. a state in which the entry is no longer `firing`. -/
def deregisterCallback (m : Manager) (t : Nat) : Bool × Manager :=
  match m with
  | .mk s es n pl cs =>
    if es.any (fun e => decide (e.token = t ∧ e.state = .pending)) then
      (true, .mk s (removeToken es t) n pl cs)
    else (false, .mk s es n pl cs)

/-- Invoke one entry's callback if it is still pending: increment its
invocation counter and mark it fired.  Entries in any other state are left
untouched (they were deregistered, already ran, or are running). -/
def fireOne (e : Entry) : Entry :=
  if e.state = .pending then { e with state := .fired, fireCount := e.fireCount + 1 }
  else e

/-- Drain the registry: fire every still-pending entry once. -/
def fireAll (es : List Entry) : List Entry := es.map fireOne

mutual

/-- Modelled from the spec (section 4.4): `StartCancel`: if cancellation has
already started or completed this is a no-op; otherwise flip to
cancel-in-progress, fire every pending callback exactly once, recursively
cancel every registered child, then flip to cancelled.  The model performs
the whole sweep in one function; the intermediate states are exposed by
`sweepTrace` below. -/
def startCancel : Manager → Manager
  | .mk s es n pl cs =>
    if s = .notCancelled then
      .mk .cancelled (fireAll es) n pl (cancelChildren cs)
    else .mk s es n pl cs

/-- Recursively cancel each manager in a list of children. -/
def cancelChildren : List Manager → List Manager
  | [] => []
  | c :: cs => startCancel c :: cancelChildren cs

end

/-- Modelled from the spec (sections 4.4 and 9): `StartCancelWithStatus`
captures the terminal status payload on the first cancellation (first
writer wins) and performs the same sweep as `startCancel`; once
cancellation has started or completed it is a no-op. -/
def startCancelWithStatus (m : Manager) (st : Nat) : Manager :=
  match m with
  | .mk s es n pl cs =>
    if s = .notCancelled then
      .mk .cancelled (fireAll es) n
        (match pl with | some p => some p | none => some st) (cancelChildren cs)
    else .mk s es n pl cs

/-- Modelled from the spec (section 4.6): constructing a child bound to a
parent: if the parent has not started cancelling, the child joins the
parent's child set uncancelled; if the parent is already cancelling or
cancelled, the child synchronously observes this and self-cancels
immediately, with no further action required from the parent.  Returns the
updated parent together with the new child. -/
def makeChild : Manager → Manager × Manager
  | .mk s es n pl cs =>
    if s = .notCancelled then
      (.mk s es n pl (cs ++ [Manager.new]), Manager.new)
    else
      (.mk s es n pl cs, Manager.new.startCancel)

/-- Modelled from the spec (section 4.6): destroying a child deregisters it
from the parent's child set; the parent's own status, registry, counter and
payload are untouched. -/
def removeChildAt (m : Manager) (i : Nat) : Manager :=
  match m with
  | .mk s es n pl cs => .mk s es n pl (cs.eraseIdx i)

/-- Mark an entry as currently executing its callback. -/
def setFiring (e : Entry) : Entry := { e with state := .firing }

/-- The successive registry snapshots produced while the sweep drains the
registry: for each pending entry, first the snapshot in which that entry is
firing (its callback is executing on the cancelling thread), then the
snapshot after it has fired. -/
def drainStages : List Entry → List (List Entry)
  | [] => []
  | e :: rest =>
    if e.state = .pending then
      (setFiring e :: rest) ::
        (fireOne e :: rest) :: (drainStages rest).map (fun stage => fireOne e :: stage)
    else (drainStages rest).map (fun stage => e :: stage)

/-- Modelled from the spec (sections 4.4-4.5): the sequence of states a
manager passes through during `startCancel`, starting at the instant the
status flips to cancel-in-progress (step 1) and ending with the final
cancelled state (step 4).  On a manager whose cancellation has already
started the sweep performs no step and the trace is just the unchanged
state. -/
def sweepTrace : Manager → List Manager
  | .mk s es n pl cs =>
    if s = .notCancelled then
      Manager.mk .inProgress es n pl cs ::
        ((drainStages es).map (fun stage => Manager.mk .inProgress stage n pl cs) ++
          [Manager.mk .inProgress (fireAll es) n pl (cancelChildren cs),
            Manager.mk .cancelled (fireAll es) n pl (cancelChildren cs)])
    else [Manager.mk s es n pl cs]

/-- Sum of recorded invocation counts over the entries registered under a
given token. -/
def tokenFireSum (es : List Entry) (t : Nat) : Nat :=
  ((es.filter fun e => decide (e.token = t)).map Entry.fireCount).sum

/-- Number of still-pending entries registered under a given token. -/
def pendingTokenCount (es : List Entry) (t : Nat) : Nat :=
  es.countP fun e => decide (e.token = t ∧ e.state = .pending)

/-- A concrete manager holding two pending callbacks under tokens 0 and 1,
as in the `StartCancelTriggersAllCallbacks` test. -/
def mTwo : Manager :=
  .mk .notCancelled [⟨0, some 10, .pending, 0⟩, ⟨1, some 11, .pending, 0⟩] 2 none []

/-- A concrete manager on which cancellation has completed: its single
callback has fired. -/
def mDone : Manager := .mk .cancelled [⟨0, some 10, .fired, 1⟩] 1 none []

/-- A concrete parent manager with two uncancelled children, as in the
`Parent_CancelManyChildren` test. -/
def mParent : Manager := .mk .notCancelled [] 0 none [Manager.new, Manager.new]

/-- A concrete mid-sweep state in which the callback for token 0 is
currently executing on the cancelling thread. -/
def mFiring : Manager := .mk .inProgress [⟨0, some 10, .firing, 0⟩] 1 none []

@[simp] theorem status_mk (s es n pl cs) : (Manager.mk s es n pl cs).status = s := rfl

@[simp] theorem entries_mk (s es n pl cs) : (Manager.mk s es n pl cs).entries = es := rfl

@[simp] theorem nextToken_mk (s es n pl cs) : (Manager.mk s es n pl cs).nextToken = n := rfl

@[simp] theorem payload_mk (s es n pl cs) : (Manager.mk s es n pl cs).payload = pl := rfl

@[simp] theorem children_mk (s es n pl cs) : (Manager.mk s es n pl cs).children = cs := rfl

theorem mk_status_entries (m : Manager) :
    m = Manager.mk m.status m.entries m.nextToken m.payload m.children := by
  cases m
  rfl

theorem cancelChildren_eq_map (cs : List Manager) :
    cancelChildren cs = cs.map startCancel := by
  induction cs with
  | nil => rfl
  | cons c cs ih => rw [cancelChildren, ih, List.map_cons]

theorem startCancel_mk (s : MStatus) (es : List Entry) (n : Nat) (pl : Option Nat)
    (cs : List Manager) :
    startCancel (.mk s es n pl cs) =
      if s = .notCancelled then .mk .cancelled (fireAll es) n pl (cancelChildren cs)
      else .mk s es n pl cs := by
  rw [startCancel]

theorem startCancel_of_requested (m : Manager) (h : m.status ≠ .notCancelled) :
    startCancel m = m := by
  cases m with
  | mk s es n pl cs =>
    rw [startCancel_mk, if_neg]
    exact h

theorem startCancelWithStatus_of_requested (m : Manager) (st : Nat)
    (h : m.status ≠ .notCancelled) : startCancelWithStatus m st = m := by
  cases m with
  | mk s es n pl cs =>
    simp only [startCancelWithStatus]
    rw [if_neg]
    exact h

theorem status_startCancel (m : Manager) :
    (startCancel m).status = if m.status = .notCancelled then .cancelled else m.status := by
  cases m with
  | mk s es n pl cs =>
    rw [startCancel_mk]
    by_cases h : s = .notCancelled <;> simp [h]

theorem isCancelled_startCancel (m : Manager) (h : m.status = .notCancelled) :
    (startCancel m).isCancelled = true := by
  rw [Manager.isCancelled, status_startCancel, h, if_pos rfl]

@[simp] theorem fireCountOf_mk (s es n pl cs t) :
    (Manager.mk s es n pl cs).fireCountOf t = tokenFireSum es t := rfl

@[simp] theorem isPendingToken_mk (s es n pl cs t) :
    (Manager.mk s es n pl cs).isPendingToken t =
      es.any fun e => decide (e.token = t ∧ e.state = .pending) := rfl

theorem token_fireOne (e : Entry) : (fireOne e).token = e.token := by
  simp only [fireOne]
  split <;> rfl

theorem state_fireOne (e : Entry) :
    (fireOne e).state = if e.state = .pending then .fired else e.state := by
  simp only [fireOne]
  split <;> simp_all

theorem fireCount_fireOne (e : Entry) :
    (fireOne e).fireCount = if e.state = .pending then e.fireCount + 1 else e.fireCount := by
  simp only [fireOne]
  split <;> simp_all

theorem filter_token_fireAll (es : List Entry) (t : Nat) :
    (fireAll es).filter (fun e => decide (e.token = t)) =
      fireAll (es.filter fun e => decide (e.token = t)) := by
  induction es with
  | nil => rfl
  | cons e es ih =>
    simp only [fireAll, List.map_cons, List.filter_cons, token_fireOne] at *
    by_cases ht : e.token = t
    · simp [ht, ih]
    · simp [ht, ih]

theorem sum_fireCount_fireAll (l : List Entry) :
    ((fireAll l).map Entry.fireCount).sum =
      (l.map Entry.fireCount).sum + (l.countP fun e => decide (e.state = .pending)) := by
  induction l with
  | nil => rfl
  | cons e l ih =>
    rw [fireAll, List.map_cons, List.map_cons, List.map_cons, List.sum_cons, List.sum_cons,
      List.countP_cons, fireCount_fireOne]
    rw [fireAll] at ih
    rw [ih]
    by_cases hp : e.state = .pending
    · rw [if_pos hp, if_pos (decide_eq_true hp)]
      omega
    · rw [if_neg hp, if_neg (fun hc => hp (of_decide_eq_true hc))]
      omega

theorem pendingTokenCount_eq_filter (es : List Entry) (t : Nat) :
    pendingTokenCount es t =
      ((es.filter fun e => decide (e.token = t)).countP fun e =>
        decide (e.state = .pending)) := by
  induction es with
  | nil => rfl
  | cons e es ih =>
    rw [pendingTokenCount, List.countP_cons, List.filter_cons]
    rw [pendingTokenCount] at ih
    by_cases ht : e.token = t
    · rw [if_pos (decide_eq_true ht), List.countP_cons, ih]
      by_cases hp : e.state = .pending
      · rw [if_pos (decide_eq_true (⟨ht, hp⟩ : _ ∧ _)), if_pos (decide_eq_true hp)]
      · rw [if_neg (fun hc => hp (of_decide_eq_true hc).2),
          if_neg (fun hc => hp (of_decide_eq_true hc))]
    · rw [if_neg (fun hc => ht (of_decide_eq_true hc).1),
        if_neg (fun hc => ht (of_decide_eq_true hc)), ih, Nat.add_zero]

theorem tokenFireSum_fireAll (es : List Entry) (t : Nat) :
    tokenFireSum (fireAll es) t = tokenFireSum es t + pendingTokenCount es t := by
  rw [tokenFireSum, filter_token_fireAll, sum_fireCount_fireAll,
    pendingTokenCount_eq_filter, tokenFireSum]

theorem pendingTokenCount_eq_zero (es : List Entry) (t : Nat)
    (h : (es.any fun e => decide (e.token = t ∧ e.state = .pending)) = false) :
    pendingTokenCount es t = 0 := by
  rw [pendingTokenCount, List.countP_eq_zero]
  intro a ha hc
  rw [List.any_eq_false] at h
  exact h a ha hc

theorem pendingTokenCount_eq_one (es : List Entry) (t : Nat)
    (hn : (es.map Entry.token).Nodup)
    (hp : (es.any fun e => decide (e.token = t ∧ e.state = .pending)) = true) :
    pendingTokenCount es t = 1 := by
  induction es with
  | nil => simp at hp
  | cons e es ih =>
    simp only [List.map_cons, List.nodup_cons] at hn
    simp only [List.any_cons, Bool.or_eq_true] at hp
    by_cases hm : e.token = t ∧ e.state = .pending
    · have hzero : pendingTokenCount es t = 0 := by
        rw [pendingTokenCount, List.countP_eq_zero]
        intro a ha hc
        rw [decide_eq_true_eq] at hc
        have hmem : e.token ∈ es.map Entry.token := by
          rw [hm.1, ← hc.1]
          exact List.mem_map_of_mem Entry.token ha
        exact hn.1 hmem
      rw [pendingTokenCount, List.countP_cons, if_pos (decide_eq_true hm)]
      rw [pendingTokenCount] at hzero
      omega
    · have hrest : (es.any fun e => decide (e.token = t ∧ e.state = .pending)) = true := by
        rcases hp with h | h
        · exact absurd (of_decide_eq_true h) hm
        · exact h
      rw [pendingTokenCount, List.countP_cons,
        if_neg (fun hc => hm (of_decide_eq_true hc))]
      have := ih hn.2 hrest
      rw [pendingTokenCount] at this
      omega

theorem not_pending_fireAll (es : List Entry) : ∀ e ∈ fireAll es, e.state ≠ .pending := by
  intro e he
  rw [fireAll] at he
  rcases List.mem_map.mp he with ⟨a, _, rfl⟩
  simp only [fireOne]
  split <;> simp_all

theorem not_firing_fireAll (es : List Entry) (h : ∀ e ∈ es, e.state ≠ .firing) :
    ∀ e ∈ fireAll es, e.state ≠ .firing := by
  intro e he
  rw [fireAll] at he
  rcases List.mem_map.mp he with ⟨a, ha, rfl⟩
  simp only [fireOne]
  split
  · simp
  · exact h a ha

theorem tokenFireSum_eq_zero_of_absent (es : List Entry) (t : Nat)
    (h : ∀ e ∈ es, e.token ≠ t) : tokenFireSum es t = 0 := by
  rw [tokenFireSum]
  have hf : es.filter (fun e => decide (e.token = t)) = [] := by
    rw [List.filter_eq_nil_iff]
    intro e he hc
    exact h e he (of_decide_eq_true hc)
  rw [hf]
  rfl

theorem tokenFireSum_cons (e : Entry) (es : List Entry) (t : Nat) :
    tokenFireSum (e :: es) t =
      (if e.token = t then e.fireCount else 0) + tokenFireSum es t := by
  rw [tokenFireSum, List.filter_cons]
  by_cases ht : e.token = t
  · rw [if_pos (decide_eq_true ht), if_pos ht, List.map_cons, List.sum_cons, tokenFireSum]
  · rw [if_neg (fun hc => ht (of_decide_eq_true hc)), if_neg ht, Nat.zero_add,
      tokenFireSum]

theorem tokenFireSum_map (g : Entry → Entry)
    (hg : ∀ e, (g e).token = e.token ∧ (g e).fireCount = e.fireCount)
    (es : List Entry) (t : Nat) :
    tokenFireSum (es.map g) t = tokenFireSum es t := by
  induction es with
  | nil => rfl
  | cons e es ih =>
    rw [List.map_cons, tokenFireSum_cons, tokenFireSum_cons, (hg e).1, (hg e).2, ih]

theorem tokenFireSum_removeToken (es : List Entry) (u t : Nat) :
    tokenFireSum (removeToken es u) t = tokenFireSum es t := by
  rw [removeToken]
  apply tokenFireSum_map
  intro e
  by_cases hm : e.token = u ∧ e.state = .pending
  · rw [if_pos hm]
    exact ⟨rfl, rfl⟩
  · rw [if_neg hm]
    exact ⟨rfl, rfl⟩

@[simp] theorem entryStateOf_mk (s es n pl cs t) :
    (Manager.mk s es n pl cs).entryStateOf t =
      (es.find? fun e => decide (e.token = t)).map Entry.state := rfl

@[simp] theorem hasToken_mk (s es n pl cs t) :
    (Manager.mk s es n pl cs).hasToken t =
      es.any fun e => decide (e.token = t) := rfl

theorem exists_firing_stage (es : List Entry) (t : Nat)
    (hn : (es.map Entry.token).Nodup)
    (hp : (es.any fun e => decide (e.token = t ∧ e.state = .pending)) = true) :
    ∃ stage, stage ∈ drainStages es ∧
      ((stage.find? fun e => decide (e.token = t)).map Entry.state)
        = some .firing := by
  induction es with
  | nil => simp at hp
  | cons e es ih =>
    simp only [List.map_cons, List.nodup_cons] at hn
    simp only [List.any_cons, Bool.or_eq_true] at hp
    rw [drainStages]
    by_cases hpend : e.state = .pending
    · rw [if_pos hpend]
      by_cases ht : e.token = t
      · refine ⟨setFiring e :: es, List.mem_cons_self _ _, ?_⟩
        have hfind : List.find? (fun x => decide (x.token = t)) (setFiring e :: es)
            = some (setFiring e) := by
          apply List.find?_cons_of_pos
          show decide ((setFiring e).token = t) = true
          exact decide_eq_true ht
        rw [hfind]
        rfl
      · have hrest : (es.any fun x =>
            decide (x.token = t ∧ x.state = .pending)) = true := by
          rcases hp with h | h
          · exact absurd (of_decide_eq_true h).1 ht
          · exact h
        obtain ⟨stage, hst, hfind⟩ := ih hn.2 hrest
        refine ⟨fireOne e :: stage, ?_, ?_⟩
        · apply List.mem_cons_of_mem
          apply List.mem_cons_of_mem
          exact List.mem_map_of_mem _ hst
        · rw [List.find?_cons_of_neg]
          · exact hfind
          · intro hc
            exact ht (by rw [← Manager.token_fireOne e]; exact of_decide_eq_true hc)
    · rw [if_neg hpend]
      have hrest : (es.any fun x =>
          decide (x.token = t ∧ x.state = .pending)) = true := by
        rcases hp with h | h
        · exact absurd (of_decide_eq_true h).2 hpend
        · exact h
      obtain ⟨stage, hst, hfind⟩ := ih hn.2 hrest
      refine ⟨e :: stage, List.mem_map_of_mem _ hst, ?_⟩
      rw [List.find?_cons_of_neg]
      · exact hfind
      · intro hc
        obtain ⟨a, ha, hpa⟩ := List.any_eq_true.mp hrest
        have hmem : e.token ∈ es.map Entry.token := by
          rw [of_decide_eq_true hc, ← (of_decide_eq_true hpa).1]
          exact List.mem_map_of_mem Entry.token ha
        exact hn.1 hmem

theorem find_fired_after_fireAll (es : List Entry) (t : Nat)
    (hn : (es.map Entry.token).Nodup)
    (hp : (es.any fun e => decide (e.token = t ∧ e.state = .pending)) = true) :
    (((fireAll es).find? fun e => decide (e.token = t)).map Entry.state)
      = some .fired := by
  induction es with
  | nil => simp at hp
  | cons e es ih =>
    simp only [List.map_cons, List.nodup_cons] at hn
    simp only [List.any_cons, Bool.or_eq_true] at hp
    rw [fireAll, List.map_cons]
    by_cases ht : e.token = t
    · have hpend : e.state = .pending := by
        rcases hp with h | h
        · exact (of_decide_eq_true h).2
        · obtain ⟨a, ha, hpa⟩ := List.any_eq_true.mp h
          have hmem : e.token ∈ es.map Entry.token := by
            rw [ht, ← (of_decide_eq_true hpa).1]
            exact List.mem_map_of_mem Entry.token ha
          exact absurd hmem hn.1
      have hfind : List.find? (fun x => decide (x.token = t))
          (fireOne e :: es.map fireOne) = some (fireOne e) := by
        apply List.find?_cons_of_pos
        show decide ((fireOne e).token = t) = true
        rw [Manager.token_fireOne]
        exact decide_eq_true ht
      rw [hfind]
      show some ((Manager.fireOne e).state) = some CbState.fired
      rw [Manager.state_fireOne, if_pos hpend]
    · have hrest : (es.any fun x =>
          decide (x.token = t ∧ x.state = .pending)) = true := by
        rcases hp with h | h
        · exact absurd (of_decide_eq_true h).1 ht
        · exact h
      rw [List.find?_cons_of_neg]
      · have hih := ih hn.2 hrest
        rw [fireAll] at hih
        exact hih
      · intro hc
        exact ht (by rw [← Manager.token_fireOne e]; exact of_decide_eq_true hc)

theorem isCancelRequested_eq_true_iff (m : Manager) :
    m.isCancelRequested = true ↔ m.status ≠ .notCancelled := by
  cases m with
  | mk s es n pl cs => cases s <;> simp [Manager.isCancelRequested, Manager.status]

theorem isCancelled_eq_true_iff (m : Manager) :
    m.isCancelled = true ↔ m.status = .cancelled := by
  cases m with
  | mk s es n pl cs => cases s <;> simp [Manager.isCancelled, Manager.status]

theorem status_registerCallback (m : Manager) (t : Nat) (cb : Option Nat) :
    ((m.registerCallback t cb).2).status = m.status := by
  cases m with
  | mk s es n pl cs =>
    simp only [registerCallback]
    split
    · split <;> rfl
    · rfl

theorem status_tryDeregisterCallback (m : Manager) (t : Nat) :
    ((m.tryDeregisterCallback t).2).status = m.status := by
  cases m with
  | mk s es n pl cs =>
    simp only [tryDeregisterCallback]
    split <;> rfl

theorem status_deregisterCallback (m : Manager) (t : Nat) :
    ((m.deregisterCallback t).2).status = m.status := by
  cases m with
  | mk s es n pl cs =>
    simp only [deregisterCallback]
    split <;> rfl

theorem status_getCancellationToken (m : Manager) :
    ((m.getCancellationToken).2).status = m.status := by
  cases m with
  | mk s es n pl cs => rfl

theorem status_startCancelWithStatus (m : Manager) (st : Nat) :
    (m.startCancelWithStatus st).status =
      if m.status = .notCancelled then .cancelled else m.status := by
  cases m with
  | mk s es n pl cs =>
    simp only [startCancelWithStatus]
    by_cases h : s = .notCancelled <;> simp [h]

theorem eraseIdx_append_singleton {α : Type} (l : List α) (c : α) :
    (l ++ [c]).eraseIdx l.length = l := by
  induction l with
  | nil => rfl
  | cons a l ih =>
    simp only [List.cons_append, List.length_cons, List.eraseIdx_cons_succ, ih]

theorem sweepTrace_mk (s : MStatus) (es : List Entry) (n : Nat) (pl : Option Nat)
    (cs : List Manager) :
    sweepTrace (.mk s es n pl cs) =
      if s = .notCancelled then
        Manager.mk .inProgress es n pl cs ::
          ((drainStages es).map (fun stage => Manager.mk .inProgress stage n pl cs) ++
            [Manager.mk .inProgress (fireAll es) n pl (cancelChildren cs),
              Manager.mk .cancelled (fireAll es) n pl (cancelChildren cs)])
      else [Manager.mk s es n pl cs] := by
  rw [sweepTrace]

theorem makeChild_mk (s : MStatus) (es : List Entry) (n : Nat) (pl : Option Nat)
    (cs : List Manager) :
    makeChild (.mk s es n pl cs) =
      if s = .notCancelled then (.mk s es n pl (cs ++ [Manager.new]), Manager.new)
      else (.mk s es n pl cs, Manager.new.startCancel) := by
  rw [makeChild]

end Manager

/-- C1: a single call to `startCancel` (or `startCancelWithStatus`) invokes
every currently-registered callback exactly once: for every token with a
pending registration, the recorded invocation count rises by exactly one
and no pending registration survives the sweep (none lost), while tokens
without a pending registration record no new invocation (none fired
twice). -/
theorem startCancel_fires_each_registered_callback_exactly_once
    (m : Manager) (t : Nat)
    (hs : m.status = .notCancelled)
    (hn : (m.entries.map Entry.token).Nodup)
    (hp : m.isPendingToken t = true) :
    (Manager.startCancel m).fireCountOf t = m.fireCountOf t + 1 ∧
    (Manager.startCancel m).isPendingToken t = false ∧
    (∀ st, (Manager.startCancelWithStatus m st).fireCountOf t
      = m.fireCountOf t + 1) ∧
    (∀ u, m.isPendingToken u = false →
      (Manager.startCancel m).fireCountOf u = m.fireCountOf u) := by
  cases m with
  | mk s es n pl cs =>
    simp only [Manager.status_mk] at hs
    subst hs
    simp only [Manager.entries_mk] at hn
    simp only [Manager.isPendingToken_mk] at hp
    rw [Manager.startCancel_mk, if_pos rfl]
    refine ⟨?_, ?_, ?_, ?_⟩
    · simp only [Manager.fireCountOf_mk]
      rw [Manager.tokenFireSum_fireAll, Manager.pendingTokenCount_eq_one es t hn hp]
    · simp only [Manager.isPendingToken_mk]
      rw [List.any_eq_false]
      intro e he hc
      exact Manager.not_pending_fireAll es e he (of_decide_eq_true hc).2
    · intro st
      simp only [Manager.startCancelWithStatus]
      rw [if_pos trivial]
      simp only [Manager.fireCountOf_mk]
      rw [Manager.tokenFireSum_fireAll, Manager.pendingTokenCount_eq_one es t hn hp]
    · intro u hu
      simp only [Manager.isPendingToken_mk] at hu
      simp only [Manager.fireCountOf_mk]
      rw [Manager.tokenFireSum_fireAll, Manager.pendingTokenCount_eq_zero es u hu,
        Nat.add_zero]

/-- Witness for C1 at a concrete manager holding two registered callbacks
(tokens 0 and 1): cancelling fires the callback of token 0 exactly once,
leaves nothing pending under token 0, behaves the same with a status
payload, and records no invocation for the unregistered token 7. -/
theorem startCancel_fires_each_registered_callback_exactly_once_witness :
    (Manager.startCancel Manager.mTwo).fireCountOf 0
        = Manager.mTwo.fireCountOf 0 + 1 ∧
      (Manager.startCancel Manager.mTwo).isPendingToken 0 = false ∧
      (Manager.startCancelWithStatus Manager.mTwo 5).fireCountOf 0
        = Manager.mTwo.fireCountOf 0 + 1 ∧
      (Manager.startCancel Manager.mTwo).fireCountOf 7
        = Manager.mTwo.fireCountOf 7 := by
  have h := startCancel_fires_each_registered_callback_exactly_once
    Manager.mTwo 0 rfl (by decide) (by decide)
  exact ⟨h.1, h.2.1, h.2.2.1 5, h.2.2.2 7 (by decide)⟩

/-- C2: `StartCancel` is idempotent: on every manager on which cancellation
has already started (cancel-in-progress) or completed (cancelled), a further
`startCancel` or `startCancelWithStatus` call is a no-op that returns the
manager unchanged — so no callback fires a second time and no recursion
into the children happens again. -/
theorem startCancel_idempotent_after_start (m : Manager)
    (h : m.status ≠ .notCancelled) :
    Manager.startCancel m = m ∧ ∀ st, Manager.startCancelWithStatus m st = m :=
  ⟨Manager.startCancel_of_requested m h,
    fun st => Manager.startCancelWithStatus_of_requested m st h⟩

/-- Witness for C2 at a concrete fully-cancelled manager. -/
theorem startCancel_idempotent_after_start_witness :
    Manager.startCancel Manager.mDone = Manager.mDone ∧
      Manager.startCancelWithStatus Manager.mDone 3 = Manager.mDone :=
  ⟨(startCancel_idempotent_after_start Manager.mDone (by decide)).1,
    (startCancel_idempotent_after_start Manager.mDone (by decide)).2 3⟩

/-- C3: for every token and every callback — a null callback (`none`)
included — registration on a manager whose cancellation has already started
returns `false` and leaves the manager unchanged, so the supplied callback
is never stored and never invoked; the already-cancelled check dominates
any null-callback check. -/
theorem registerCallback_after_cancel_always_fails (m : Manager) (t : Nat)
    (cb : Option Nat) (h : m.status ≠ .notCancelled) :
    (Manager.registerCallback m t cb).1 = false ∧
      (Manager.registerCallback m t cb).2 = m := by
  cases m with
  | mk s es n pl cs =>
    simp only [Manager.status_mk] at h
    simp only [Manager.registerCallback]
    rw [if_neg h]
    exact ⟨rfl, rfl⟩

/-- Witness for C3: a null callback registered on a concrete cancelled
manager is rejected. -/
theorem registerCallback_after_cancel_always_fails_witness :
    (Manager.registerCallback Manager.mDone 5 none).1 = false ∧
      (Manager.registerCallback Manager.mDone 5 none).2 = Manager.mDone :=
  registerCallback_after_cancel_always_fails Manager.mDone 5 none (by decide)

/-- C4: on a manager on which cancellation never starts, registering a
callback under a freshly issued token succeeds, a subsequent
`deregisterCallback` (or `tryDeregisterCallback`) on that token returns
`true`, and the callback is never invoked — its invocation count is zero
after deregistration and stays zero even if the registry is later drained
by a cancellation. -/
theorem register_then_deregister_never_invokes (m : Manager) (cb : Option Nat)
    (hs : m.status = .notCancelled)
    (hinv : ∀ e ∈ m.entries, e.token < m.nextToken) :
    ((m.getCancellationToken.2).registerCallback m.getCancellationToken.1 cb).1
      = true ∧
    (((m.getCancellationToken.2).registerCallback
        m.getCancellationToken.1 cb).2.deregisterCallback
        m.getCancellationToken.1).1 = true ∧
    ((((m.getCancellationToken.2).registerCallback
        m.getCancellationToken.1 cb).2.deregisterCallback
        m.getCancellationToken.1).2).fireCountOf m.getCancellationToken.1 = 0 ∧
    (((((m.getCancellationToken.2).registerCallback
        m.getCancellationToken.1 cb).2.deregisterCallback
        m.getCancellationToken.1).2).startCancel).fireCountOf
        m.getCancellationToken.1 = 0 ∧
    (((m.getCancellationToken.2).registerCallback
        m.getCancellationToken.1 cb).2.tryDeregisterCallback
        m.getCancellationToken.1).1 = true ∧
    (((((m.getCancellationToken.2).registerCallback
        m.getCancellationToken.1 cb).2.tryDeregisterCallback
        m.getCancellationToken.1).2).startCancel).fireCountOf
        m.getCancellationToken.1 = 0 := by
  cases m with
  | mk s es n pl cs =>
    simp only [Manager.status_mk] at hs
    subst hs
    simp only [Manager.entries_mk, Manager.nextToken_mk] at hinv
    simp only [Manager.getCancellationToken]
    have hfresh : (es.any fun e => decide (e.token = n)) = false := by
      rw [List.any_eq_false]
      intro e he hc
      exact Nat.lt_irrefl n (of_decide_eq_true hc ▸ hinv e he)
    have hreg : Manager.registerCallback
        (Manager.mk .notCancelled es (n + 1) pl cs) n cb
        = (true, Manager.mk .notCancelled
            (⟨n, cb, .pending, 0⟩ :: es) (n + 1) pl cs) := by
      simp only [Manager.registerCallback]
      rw [if_pos trivial, hfresh, if_neg Bool.false_ne_true]
    have hany : ((Entry.mk n cb .pending 0 :: es).any fun e =>
        decide (e.token = n ∧ e.state = .pending)) = true := by
      rw [List.any_cons]
      simp
    have hderg : Manager.deregisterCallback
        (Manager.mk .notCancelled (⟨n, cb, .pending, 0⟩ :: es) (n + 1) pl cs) n
        = (true, Manager.mk .notCancelled
            (Manager.removeToken (⟨n, cb, .pending, 0⟩ :: es) n) (n + 1) pl cs) := by
      simp only [Manager.deregisterCallback]
      rw [if_pos hany]
    have htryderg : Manager.tryDeregisterCallback
        (Manager.mk .notCancelled (⟨n, cb, .pending, 0⟩ :: es) (n + 1) pl cs) n
        = (true, Manager.mk .notCancelled
            (Manager.removeToken (⟨n, cb, .pending, 0⟩ :: es) n) (n + 1) pl cs) := by
      simp only [Manager.tryDeregisterCallback]
      rw [if_pos hany]
    have hes : Manager.tokenFireSum es n = 0 :=
      Manager.tokenFireSum_eq_zero_of_absent es n
        (fun e he hc => Nat.lt_irrefl n (hc ▸ hinv e he))
    have hzero : Manager.tokenFireSum
        (Manager.removeToken (⟨n, cb, .pending, 0⟩ :: es) n) n = 0 := by
      rw [Manager.tokenFireSum_removeToken, Manager.tokenFireSum_cons, hes]
      rw [if_pos rfl]
    have hany2 : ((Manager.removeToken (⟨n, cb, .pending, 0⟩ :: es) n).any fun e =>
        decide (e.token = n ∧ e.state = .pending)) = false := by
      rw [List.any_eq_false]
      intro e he hc
      obtain ⟨hc1, hc2⟩ := of_decide_eq_true hc
      rw [Manager.removeToken, List.map_cons] at he
      rcases List.mem_cons.mp he with he | he
      · rw [if_pos ⟨rfl, rfl⟩] at he
        rw [he] at hc2
        simp at hc2
      · rcases List.mem_map.mp he with ⟨a, ha, rfl⟩
        have htok : (if a.token = n ∧ a.state = .pending
            then { a with state := CbState.removed } else a).token = a.token := by
          split <;> rfl
        rw [htok] at hc1
        exact Nat.lt_irrefl n (hc1 ▸ hinv a ha)
    have hfinal : ((Manager.mk MStatus.notCancelled
        (Manager.removeToken (⟨n, cb, .pending, 0⟩ :: es) n) (n + 1) pl
        cs).startCancel).fireCountOf n = 0 := by
      rw [Manager.startCancel_mk, if_pos rfl]
      simp only [Manager.fireCountOf_mk]
      rw [Manager.tokenFireSum_fireAll, hzero,
        Manager.pendingTokenCount_eq_zero _ _ hany2]
    refine ⟨by rw [hreg], ?_, ?_, ?_, ?_, ?_⟩
    · rw [hreg, hderg]
    · rw [hreg, hderg]
      simp only [Manager.fireCountOf_mk]
      exact hzero
    · rw [hreg, hderg]
      exact hfinal
    · rw [hreg, htryderg]
    · rw [hreg, htryderg]
      exact hfinal

/-- Witness for C4 on a concrete fresh manager: the issued token is 0, the
registration and both deregistration variants succeed, and the callback
records no invocation before or after a later cancellation. -/
theorem register_then_deregister_never_invokes_witness :
    ((Manager.new.getCancellationToken.2).registerCallback
        Manager.new.getCancellationToken.1 (some 42)).1 = true ∧
    (((Manager.new.getCancellationToken.2).registerCallback
        Manager.new.getCancellationToken.1 (some 42)).2.deregisterCallback
        Manager.new.getCancellationToken.1).1 = true ∧
    ((((Manager.new.getCancellationToken.2).registerCallback
        Manager.new.getCancellationToken.1 (some 42)).2.deregisterCallback
        Manager.new.getCancellationToken.1).2).fireCountOf
        Manager.new.getCancellationToken.1 = 0 ∧
    (((((Manager.new.getCancellationToken.2).registerCallback
        Manager.new.getCancellationToken.1 (some 42)).2.deregisterCallback
        Manager.new.getCancellationToken.1).2).startCancel).fireCountOf
        Manager.new.getCancellationToken.1 = 0 ∧
    (((Manager.new.getCancellationToken.2).registerCallback
        Manager.new.getCancellationToken.1 (some 42)).2.tryDeregisterCallback
        Manager.new.getCancellationToken.1).1 = true ∧
    (((((Manager.new.getCancellationToken.2).registerCallback
        Manager.new.getCancellationToken.1 (some 42)).2.tryDeregisterCallback
        Manager.new.getCancellationToken.1).2).startCancel).fireCountOf
        Manager.new.getCancellationToken.1 = 0 :=
  register_then_deregister_never_invokes Manager.new (some 42) rfl
    (by intro e he; exact absurd he (List.not_mem_nil e))

/-- C5: for every token whose callback has fired during the cancellation
sweep, a later `deregisterCallback` or `tryDeregisterCallback` on that
token returns `false` and leaves the manager unchanged, and the callback is
never invoked a second time (its invocation count stays at exactly one more
than before the sweep, even across a further `startCancel`). -/
theorem deregister_after_fired_always_fails (m : Manager) (t : Nat)
    (hs : m.status = .notCancelled)
    (hn : (m.entries.map Entry.token).Nodup)
    (hp : m.isPendingToken t = true) :
    ((Manager.startCancel m).deregisterCallback t).1 = false ∧
    ((Manager.startCancel m).deregisterCallback t).2 = Manager.startCancel m ∧
    ((Manager.startCancel m).tryDeregisterCallback t).1 = false ∧
    ((Manager.startCancel m).tryDeregisterCallback t).2 = Manager.startCancel m ∧
    (Manager.startCancel m).fireCountOf t = m.fireCountOf t + 1 ∧
    (((Manager.startCancel m).deregisterCallback t).2.startCancel).fireCountOf t
      = m.fireCountOf t + 1 := by
  cases m with
  | mk s es n pl cs =>
    simp only [Manager.status_mk] at hs
    subst hs
    simp only [Manager.entries_mk] at hn
    simp only [Manager.isPendingToken_mk] at hp
    rw [Manager.startCancel_mk, if_pos rfl]
    have hnp : ((Manager.fireAll es).any fun e =>
        decide (e.token = t ∧ e.state = .pending)) = false := by
      rw [List.any_eq_false]
      intro e he hc
      exact Manager.not_pending_fireAll es e he (of_decide_eq_true hc).2
    have hder : Manager.deregisterCallback
        (Manager.mk .cancelled (Manager.fireAll es) n pl (Manager.cancelChildren cs)) t
        = (false,
          Manager.mk .cancelled (Manager.fireAll es) n pl (Manager.cancelChildren cs)) := by
      simp only [Manager.deregisterCallback]
      rw [if_neg]
      intro hc
      rw [hnp] at hc
      exact Bool.false_ne_true hc
    have htry : Manager.tryDeregisterCallback
        (Manager.mk .cancelled (Manager.fireAll es) n pl (Manager.cancelChildren cs)) t
        = (false,
          Manager.mk .cancelled (Manager.fireAll es) n pl (Manager.cancelChildren cs)) := by
      simp only [Manager.tryDeregisterCallback]
      rw [if_neg]
      intro hc
      rw [hnp] at hc
      exact Bool.false_ne_true hc
    have hcount : (Manager.mk MStatus.cancelled (Manager.fireAll es) n pl
        (Manager.cancelChildren cs)).fireCountOf t
        = (Manager.mk MStatus.notCancelled es n pl cs).fireCountOf t + 1 := by
      simp only [Manager.fireCountOf_mk]
      rw [Manager.tokenFireSum_fireAll, Manager.pendingTokenCount_eq_one es t hn hp]
    refine ⟨by rw [hder], by rw [hder], by rw [htry], by rw [htry], hcount, ?_⟩
    rw [hder]
    rw [Manager.startCancel_of_requested _ (by simp)]
    exact hcount

/-- Witness for C5 at a concrete manager with two registered callbacks:
after cancellation, deregistering token 0 fails in both variants, the state
is unchanged, and token 0's callback stays at exactly one invocation. -/
theorem deregister_after_fired_always_fails_witness :
    ((Manager.startCancel Manager.mTwo).deregisterCallback 0).1 = false ∧
    ((Manager.startCancel Manager.mTwo).deregisterCallback 0).2
      = Manager.startCancel Manager.mTwo ∧
    ((Manager.startCancel Manager.mTwo).tryDeregisterCallback 0).1 = false ∧
    ((Manager.startCancel Manager.mTwo).tryDeregisterCallback 0).2
      = Manager.startCancel Manager.mTwo ∧
    (Manager.startCancel Manager.mTwo).fireCountOf 0
      = Manager.mTwo.fireCountOf 0 + 1 ∧
    (((Manager.startCancel Manager.mTwo).deregisterCallback 0).2.startCancel).fireCountOf 0
      = Manager.mTwo.fireCountOf 0 + 1 :=
  deregister_after_fired_always_fails Manager.mTwo 0 rfl (by decide) (by decide)

/-- C6: `isCancelRequested` becomes true the instant the sweep starts and
stays true through every state of the sweep and forever after (it is
preserved by every further operation), while `isCancelled` is true only in
the final post-sweep state; in particular, in every sweep state in which a
callback is still executing, `isCancelRequested` is already true and
`isCancelled` is still false, and both are true once `startCancel` has
returned. -/
theorem cancelRequested_during_sweep_and_cancelled_only_after (m : Manager)
    (hs : m.status = .notCancelled)
    (hf : ∀ e ∈ m.entries, e.state ≠ .firing) :
    (∀ u ∈ m.sweepTrace, u.isCancelRequested = true) ∧
    (∀ u ∈ m.sweepTrace, u.isCancelled = true → u = Manager.startCancel m) ∧
    (∀ u ∈ m.sweepTrace, (∃ e ∈ u.entries, e.state = .firing) →
      u.isCancelRequested = true ∧ u.isCancelled = false) ∧
    m.sweepTrace.getLast? = some (Manager.startCancel m) ∧
    (Manager.startCancel m).isCancelRequested = true ∧
    (Manager.startCancel m).isCancelled = true ∧
    (∀ u : Manager, u.isCancelRequested = true →
      (Manager.startCancel u).isCancelRequested = true ∧
      (∀ st, (Manager.startCancelWithStatus u st).isCancelRequested = true) ∧
      (∀ t cb, ((Manager.registerCallback u t cb).2).isCancelRequested = true) ∧
      (∀ t, ((Manager.deregisterCallback u t).2).isCancelRequested = true) ∧
      (∀ t, ((Manager.tryDeregisterCallback u t).2).isCancelRequested = true) ∧
      ((u.getCancellationToken.2).isCancelRequested = true)) := by
  cases m with
  | mk s es n pl cs =>
    simp only [Manager.status_mk] at hs
    subst hs
    simp only [Manager.entries_mk] at hf
    rw [Manager.sweepTrace_mk, if_pos rfl, Manager.startCancel_mk, if_pos rfl]
    have hsplit : ∀ u : Manager,
        u ∈ Manager.mk MStatus.inProgress es n pl cs ::
          ((Manager.drainStages es).map
            (fun stage => Manager.mk .inProgress stage n pl cs) ++
            [Manager.mk .inProgress (Manager.fireAll es) n pl
              (Manager.cancelChildren cs),
             Manager.mk .cancelled (Manager.fireAll es) n pl
              (Manager.cancelChildren cs)]) →
        u = Manager.mk MStatus.inProgress es n pl cs ∨
        (∃ stage, stage ∈ Manager.drainStages es ∧
          u = Manager.mk .inProgress stage n pl cs) ∨
        u = Manager.mk .inProgress (Manager.fireAll es) n pl
          (Manager.cancelChildren cs) ∨
        u = Manager.mk .cancelled (Manager.fireAll es) n pl
          (Manager.cancelChildren cs) := by
      intro u hu
      rcases List.mem_cons.mp hu with rfl | hu
      · exact Or.inl rfl
      rcases List.mem_append.mp hu with hu | hu
      · rcases List.mem_map.mp hu with ⟨stage, hst, rfl⟩
        exact Or.inr (Or.inl ⟨stage, hst, rfl⟩)
      rcases List.mem_cons.mp hu with rfl | hu
      · exact Or.inr (Or.inr (Or.inl rfl))
      rcases List.mem_cons.mp hu with rfl | hu
      · exact Or.inr (Or.inr (Or.inr rfl))
      exact absurd hu (List.not_mem_nil u)
    refine ⟨?_, ?_, ?_, ?_, rfl, rfl, ?_⟩
    · intro u hu
      rcases hsplit u hu with rfl | ⟨stage, _, rfl⟩ | rfl | rfl <;> rfl
    · intro u hu hc
      rcases hsplit u hu with rfl | ⟨stage, _, rfl⟩ | rfl | rfl
      · simp [Manager.isCancelled] at hc
      · simp [Manager.isCancelled] at hc
      · simp [Manager.isCancelled] at hc
      · rfl
    · intro u hu hfir
      rcases hsplit u hu with rfl | ⟨stage, _, rfl⟩ | rfl | rfl
      · exact ⟨rfl, rfl⟩
      · exact ⟨rfl, rfl⟩
      · exact ⟨rfl, rfl⟩
      · obtain ⟨e, he, hef⟩ := hfir
        simp only [Manager.entries_mk] at he
        exact absurd hef (Manager.not_firing_fireAll es hf e he)
    · rw [show Manager.mk MStatus.inProgress es n pl cs ::
          ((Manager.drainStages es).map
            (fun stage => Manager.mk .inProgress stage n pl cs) ++
            [Manager.mk .inProgress (Manager.fireAll es) n pl
              (Manager.cancelChildren cs),
             Manager.mk .cancelled (Manager.fireAll es) n pl
              (Manager.cancelChildren cs)]) =
          (Manager.mk MStatus.inProgress es n pl cs ::
            ((Manager.drainStages es).map
              (fun stage => Manager.mk .inProgress stage n pl cs) ++
              [Manager.mk .inProgress (Manager.fireAll es) n pl
                (Manager.cancelChildren cs)])) ++
            [Manager.mk .cancelled (Manager.fireAll es) n pl
              (Manager.cancelChildren cs)] by simp]
      rw [List.getLast?_concat]
    · intro u hu
      rw [Manager.isCancelRequested_eq_true_iff] at hu
      refine ⟨?_, ?_, ?_, ?_, ?_, ?_⟩
      · rw [Manager.isCancelRequested_eq_true_iff, Manager.status_startCancel,
          if_neg hu]
        exact hu
      · intro st
        rw [Manager.isCancelRequested_eq_true_iff, Manager.status_startCancelWithStatus,
          if_neg hu]
        exact hu
      · intro t cb
        rw [Manager.isCancelRequested_eq_true_iff, Manager.status_registerCallback]
        exact hu
      · intro t
        rw [Manager.isCancelRequested_eq_true_iff, Manager.status_deregisterCallback]
        exact hu
      · intro t
        rw [Manager.isCancelRequested_eq_true_iff, Manager.status_tryDeregisterCallback]
        exact hu
      · rw [Manager.isCancelRequested_eq_true_iff, Manager.status_getCancellationToken]
        exact hu

/-- Witness for C6 on a concrete manager with two registered callbacks:
the sweep trace ends exactly at the `startCancel` result, which reports
both cancel-requested and cancelled, and cancel-requested is preserved by a
further deregistration on an already-cancelled manager. -/
theorem cancelRequested_during_sweep_and_cancelled_only_after_witness :
    Manager.mTwo.sweepTrace.getLast? = some (Manager.startCancel Manager.mTwo) ∧
    (Manager.startCancel Manager.mTwo).isCancelRequested = true ∧
    (Manager.startCancel Manager.mTwo).isCancelled = true ∧
    ((Manager.deregisterCallback Manager.mDone 0).2).isCancelRequested = true := by
  have h := cancelRequested_during_sweep_and_cancelled_only_after Manager.mTwo rfl
    (by decide)
  exact ⟨h.2.2.2.1, h.2.2.2.2.1, h.2.2.2.2.2.1,
    (h.2.2.2.2.2.2 Manager.mDone rfl).2.2.2.1 0⟩

/-- C7: cancelling a parent manager cancels every one of its registered
children: the child set keeps its size, and every child that was
uncancelled reports cancelled once the parent's `startCancel` returns. -/
theorem parent_startCancel_cancels_all_children (m : Manager)
    (hs : m.status = .notCancelled)
    (hc : ∀ c ∈ m.children, c.status = .notCancelled) :
    (Manager.startCancel m).children.length = m.children.length ∧
    ∀ c ∈ (Manager.startCancel m).children, c.isCancelled = true := by
  cases m with
  | mk s es n pl cs =>
    simp only [Manager.status_mk] at hs
    subst hs
    simp only [Manager.children_mk] at hc
    rw [Manager.startCancel_mk, if_pos rfl]
    simp only [Manager.children_mk]
    rw [Manager.cancelChildren_eq_map]
    refine ⟨by simp, ?_⟩
    intro c hcm
    rcases List.mem_map.mp hcm with ⟨c0, hc0, rfl⟩
    exact Manager.isCancelled_startCancel c0 (hc c0 hc0)

/-- Witness for C7 at a concrete parent with two uncancelled children. -/
theorem parent_startCancel_cancels_all_children_witness :
    (Manager.startCancel Manager.mParent).children.length =
        Manager.mParent.children.length ∧
      (Manager.startCancel Manager.new).isCancelled = true := by
  have h := parent_startCancel_cancels_all_children Manager.mParent rfl
    (by
      intro c hcmem
      have hcm2 : c = Manager.new ∨ c = Manager.new := by
        simpa [Manager.mParent] using hcmem
      rcases hcm2 with rfl | rfl <;> rfl)
  refine ⟨h.1, ?_⟩
  apply h.2
  have : (Manager.startCancel Manager.mParent).children =
      [Manager.startCancel Manager.new, Manager.startCancel Manager.new] := by
    rw [Manager.mParent, Manager.startCancel_mk, if_pos rfl]
    simp only [Manager.children_mk]
    rw [Manager.cancelChildren_eq_map]
    rfl
  rw [this]
  exact List.mem_cons_self _ _

/-- C8: constructing a child bound to a parent that is already cancelled
leaves the child immediately in the cancelled state, and requires no
further action from the parent (the parent is returned unchanged). -/
theorem child_of_cancelled_parent_starts_cancelled (m : Manager)
    (h : m.isCancelled = true) :
    ((Manager.makeChild m).2).isCancelled = true ∧ (Manager.makeChild m).1 = m := by
  cases m with
  | mk s es n pl cs =>
    have hs : s = .cancelled := by
      rw [Manager.isCancelled_eq_true_iff] at h
      simpa using h
    subst hs
    rw [Manager.makeChild_mk, if_neg (by decide)]
    exact ⟨Manager.isCancelled_startCancel Manager.new rfl, rfl⟩

/-- Witness for C8 at a concrete cancelled parent. -/
theorem child_of_cancelled_parent_starts_cancelled_witness :
    ((Manager.makeChild Manager.mDone).2).isCancelled = true ∧
      (Manager.makeChild Manager.mDone).1 = Manager.mDone :=
  child_of_cancelled_parent_starts_cancelled Manager.mDone (by decide)

/-- C9: while a token's callback is executing inside the cancellation sweep
the manager passes through an observable state in which that entry is in
the firing state and the manager is not yet cancelled; in any such state
`tryDeregisterCallback` returns `false` without changing anything (it never
waits — it is defined on the in-flight state itself), while the blocking
`deregisterCallback`, whose wait is modelled by evaluating it on the state
observed after the callback finished (the entry now fired), also returns
`false` and changes nothing. -/
theorem tryDeregister_inflight_and_deregister_after_wait_fail
    (m s s' : Manager) (t : Nat)
    (hs : m.status = .notCancelled)
    (hn : (m.entries.map Entry.token).Nodup)
    (hp : m.isPendingToken t = true)
    (hfirTok : s.hasToken t = true)
    (hfir : ∀ e ∈ s.entries, e.token = t → e.state = .firing)
    (hfinTok : s'.hasToken t = true)
    (hfin : ∀ e ∈ s'.entries, e.token = t → e.state = .fired) :
    (∃ u ∈ m.sweepTrace, u.entryStateOf t = some .firing ∧ u.isCancelled = false) ∧
    (Manager.startCancel m).entryStateOf t = some .fired ∧
    (s.tryDeregisterCallback t).1 = false ∧
    (s.tryDeregisterCallback t).2 = s ∧
    (s'.deregisterCallback t).1 = false ∧
    (s'.deregisterCallback t).2 = s' := by
  refine ⟨?_, ?_, ?_, ?_, ?_, ?_⟩
  · cases m with
    | mk ms es n pl cs =>
      simp only [Manager.status_mk] at hs
      subst hs
      simp only [Manager.entries_mk] at hn
      simp only [Manager.isPendingToken_mk] at hp
      obtain ⟨stage, hst, hfind⟩ := Manager.exists_firing_stage es t hn hp
      refine ⟨Manager.mk .inProgress stage n pl cs, ?_, ?_, rfl⟩
      · rw [Manager.sweepTrace_mk, if_pos rfl]
        apply List.mem_cons_of_mem
        apply List.mem_append_left
        exact List.mem_map_of_mem _ hst
      · simpa using hfind
  · cases m with
    | mk ms es n pl cs =>
      simp only [Manager.status_mk] at hs
      subst hs
      simp only [Manager.entries_mk] at hn
      simp only [Manager.isPendingToken_mk] at hp
      rw [Manager.startCancel_mk, if_pos rfl]
      simpa using Manager.find_fired_after_fireAll es t hn hp
  all_goals cases s with
  | mk ss ses sn spl scs =>
    cases s' with
    | mk fs fes fn fpl fcs =>
      simp only [Manager.entries_mk] at hfir hfin
      have hanyS : (ses.any fun e =>
          decide (e.token = t ∧ e.state = .pending)) = false := by
        rw [List.any_eq_false]
        intro e he hc
        obtain ⟨h1, h2⟩ := of_decide_eq_true hc
        have := hfir e he h1
        rw [this] at h2
        exact absurd h2 (by decide)
      have hanyF : (fes.any fun e =>
          decide (e.token = t ∧ e.state = .pending)) = false := by
        rw [List.any_eq_false]
        intro e he hc
        obtain ⟨h1, h2⟩ := of_decide_eq_true hc
        have := hfin e he h1
        rw [this] at h2
        exact absurd h2 (by decide)
      simp only [Manager.tryDeregisterCallback, Manager.deregisterCallback]
      first
      | (rw [if_neg (fun hc => Bool.false_ne_true ((hanyS ▸ hc : (false : Bool) = true)))])
      | (rw [if_neg (fun hc => Bool.false_ne_true ((hanyF ▸ hc : (false : Bool) = true)))])

/-- Witness for C9: on a concrete mid-sweep manager whose token-0 callback
is firing, `tryDeregisterCallback` fails and changes nothing, and on the
concrete post-sweep manager whose token-0 callback has fired, the blocking
`deregisterCallback` (evaluated after its wait) fails and changes nothing;
the sweep of a concrete two-callback manager leaves token 0 fired. -/
theorem tryDeregister_inflight_and_deregister_after_wait_fail_witness :
    (Manager.startCancel Manager.mTwo).entryStateOf 0 = some .fired ∧
    (Manager.mFiring.tryDeregisterCallback 0).1 = false ∧
    (Manager.mFiring.tryDeregisterCallback 0).2 = Manager.mFiring ∧
    (Manager.mDone.deregisterCallback 0).1 = false ∧
    (Manager.mDone.deregisterCallback 0).2 = Manager.mDone := by
  have h := tryDeregister_inflight_and_deregister_after_wait_fail
    Manager.mTwo Manager.mFiring Manager.mDone 0 rfl (by decide) (by decide)
    (by decide)
    (by
      intro e he h1
      have h2 : e = (⟨0, some 10, .firing, 0⟩ : Entry) := by
        simpa [Manager.mFiring] using he
      rw [h2])
    (by decide)
    (by
      intro e he h1
      have h2 : e = (⟨0, some 10, .fired, 1⟩ : Entry) := by
        simpa [Manager.mDone] using he
      rw [h2])
  exact ⟨h.2.1, h.2.2.1, h.2.2.2.1, h.2.2.2.2.1, h.2.2.2.2.2⟩

/-- C10: cancellation propagates only downward: after binding a fresh child
to an uncancelled parent, cancelling that child succeeds (the child reports
cancelled) while the parent's status is untouched, and destroying the child
(deregistering it from the parent's child set) returns the parent exactly
to its original state, still reporting not cancelled. -/
theorem child_cancel_and_destroy_leave_parent_uncancelled (m : Manager)
    (h : m.status = .notCancelled) :
    ((Manager.makeChild m).2.startCancel).isCancelled = true ∧
    ((Manager.makeChild m).1).status = m.status ∧
    Manager.removeChildAt (Manager.makeChild m).1 m.children.length = m ∧
    (Manager.removeChildAt (Manager.makeChild m).1 m.children.length).isCancelled
      = false := by
  cases m with
  | mk s es n pl cs =>
    simp only [Manager.status_mk] at h
    subst h
    rw [Manager.makeChild_mk, if_pos rfl]
    have h3 : Manager.removeChildAt
        (Manager.mk .notCancelled es n pl (cs ++ [Manager.new])) cs.length =
        Manager.mk .notCancelled es n pl cs := by
      simp only [Manager.removeChildAt]
      rw [Manager.eraseIdx_append_singleton]
    refine ⟨Manager.isCancelled_startCancel Manager.new rfl, rfl, ?_, ?_⟩
    · simpa using h3
    · simp only [Manager.children_mk]
      rw [h3]
      rfl

/-- Witness for C10 at a concrete fresh parent. -/
theorem child_cancel_and_destroy_leave_parent_uncancelled_witness :
    ((Manager.makeChild Manager.new).2.startCancel).isCancelled = true ∧
    ((Manager.makeChild Manager.new).1).status = Manager.new.status ∧
    Manager.removeChildAt (Manager.makeChild Manager.new).1
        Manager.new.children.length = Manager.new ∧
    (Manager.removeChildAt (Manager.makeChild Manager.new).1
        Manager.new.children.length).isCancelled = false :=
  child_cancel_and_destroy_leave_parent_uncancelled Manager.new rfl

end Cancellation
